import Mathlib

/-!
Verification development for the MaidSafe routing layer.

The repository ships three source files: the functional-test harness
(`routing_network.cc`, `test_routing_functional.cc`) and the RPC layer
declaration (`rpcs.h`).  The core data structures they exercise
(`NodeId`, `RoutingTable`, the message router timer, the join
coordinator) are declared and called but their definitions are not in
the tree; where a definition is needed it is modelled from the spec,
and each such definition says so in its doc comment.  Definitions taken
from the harness code (`GenericNetwork::Validate`,
`GenericNode::message_received`, the `network_status` functor of
`AddNodeDetails`) are embedded directly from the source.
-/

namespace MaidSafeRouting

/-- A node identifier: a fixed-length opaque byte sequence (512 bits in
the observed system), embedded as a list of byte values.  Fixed width is
expressed in theorems as equality of lengths. -/
def NodeId : Type := List Nat

instance : DecidableEq NodeId := inferInstanceAs (DecidableEq (List Nat))

/-- Bytewise XOR of two identifiers. -/
def xorBytes (a b : NodeId) : NodeId := List.zipWith Nat.xor a b

/-- Lexicographic strict comparison of byte sequences, as used by
`NodeId::operator<` on the XOR distance. -/
def lexLt : List Nat → List Nat → Bool
  | [], [] => false
  | [], _ :: _ => true
  | _ :: _, [] => false
  | a :: as, b :: bs => if a < b then true else if b < a then false else lexLt as bs

/-- Modelled from the spec: `NodeId::CloserToTarget(lhs, rhs, target)`
(declared and used by the harness, definition not under src/) — two
identifiers are compared for closeness to a target via bitwise
XOR-then-lexicographic comparison. -/
def CloserToTarget (lhs rhs target : NodeId) : Bool :=
  lexLt (xorBytes lhs target) (xorBytes rhs target)

theorem lexLt_irrefl (a : List Nat) : lexLt a a = false := by
  induction a with
  | nil => rfl
  | cons x xs ih => simp [lexLt, ih]

theorem lexLt_trans {a b c : List Nat} (hab : lexLt a b = true) (hbc : lexLt b c = true) :
    lexLt a c = true := by
  induction a generalizing b c with
  | nil =>
    cases c with
    | nil =>
      cases b with
      | nil => exact hbc
      | cons y ys => exact absurd hbc (by simp [lexLt])
    | cons z zs => simp [lexLt]
  | cons x xs ih =>
    cases b with
    | nil => exact absurd hab (by simp [lexLt])
    | cons y ys =>
      cases c with
      | nil => exact absurd hbc (by simp [lexLt])
      | cons z zs =>
        simp only [lexLt] at hab hbc ⊢
        rcases Nat.lt_trichotomy x y with hxy | hxy | hxy
        · rcases Nat.lt_trichotomy y z with hyz | hyz | hyz
          · simp [Nat.lt_trans hxy hyz]
          · subst hyz; simp [hxy]
          · rw [if_neg (Nat.lt_asymm hyz), if_pos hyz] at hbc
            exact absurd hbc (by simp)
        · subst hxy
          rw [if_neg (lt_irrefl x), if_neg (lt_irrefl x)] at hab
          rcases Nat.lt_trichotomy x z with hxz | hxz | hxz
          · simp [hxz]
          · subst hxz
            rw [if_neg (lt_irrefl x), if_neg (lt_irrefl x)] at hbc ⊢
            exact ih hab hbc
          · rw [if_neg (Nat.lt_asymm hxz), if_pos hxz] at hbc
            exact absurd hbc (by simp)
        · rw [if_neg (Nat.lt_asymm hxy), if_pos hxy] at hab
          exact absurd hab (by simp)

theorem lexLt_trichotomy (a b : List Nat) :
    lexLt a b = true ∨ lexLt b a = true ∨ a = b := by
  induction a generalizing b with
  | nil =>
    cases b with
    | nil => right; right; rfl
    | cons y ys => left; rfl
  | cons x xs ih =>
    cases b with
    | nil => right; left; rfl
    | cons y ys =>
      by_cases hxy : x < y
      · left; simp [lexLt, hxy]
      · by_cases hyx : y < x
        · right; left; simp [lexLt, hyx]
        · have hxeq : x = y := Nat.le_antisymm (Nat.le_of_not_lt hyx) (Nat.le_of_not_lt hxy)
          subst hxeq
          rcases ih ys with h | h | h
          · left; simp [lexLt, h]
          · right; left; simp [lexLt, h]
          · right; right; rw [h]

theorem lexLt_asymm {a b : List Nat} (h : lexLt a b = true) : lexLt b a = false := by
  by_contra hcon
  have hba : lexLt b a = true := by
    cases hb : lexLt b a with
    | false => exact absurd hb hcon
    | true => rfl
  have := lexLt_trans h hba
  rw [lexLt_irrefl] at this
  exact Bool.false_ne_true this

theorem xorBytes_cancel {a b t : NodeId} (ha : a.length = t.length)
    (hb : b.length = t.length) (h : xorBytes a t = xorBytes b t) : a = b := by
  induction t generalizing a b with
  | nil =>
    have ha0 : a = [] := List.length_eq_zero.mp ha
    have hb0 : b = [] := List.length_eq_zero.mp hb
    rw [ha0, hb0]
  | cons x ts ih =>
    cases a with
    | nil => simp at ha
    | cons a0 as =>
      cases b with
      | nil => simp at hb
      | cons b0 bs =>
        have h' : Nat.xor a0 x :: xorBytes as ts = Nat.xor b0 x :: xorBytes bs ts := h
        injection h' with hhead htail
        have h0 : a0 = b0 := by
          have h1 : Nat.xor (Nat.xor a0 x) x = Nat.xor (Nat.xor b0 x) x := by rw [hhead]
          have h2 : a0 ^^^ x ^^^ x = b0 ^^^ x ^^^ x := h1
          rwa [Nat.xor_cancel_right, Nat.xor_cancel_right] at h2
        have hl1 : as.length = ts.length := by simpa using ha
        have hl2 : bs.length = ts.length := by simpa using hb
        have := ih hl1 hl2 htail
        rw [h0, this]

theorem closerToTarget_irrefl (a t : NodeId) : CloserToTarget a a t = false :=
  lexLt_irrefl _

theorem closerToTarget_trans {a b c t : NodeId}
    (hab : CloserToTarget a b t = true) (hbc : CloserToTarget b c t = true) :
    CloserToTarget a c t = true :=
  lexLt_trans hab hbc

theorem closerToTarget_trichotomy {a b t : NodeId}
    (ha : a.length = t.length) (hb : b.length = t.length) :
    CloserToTarget a b t = true ∨ CloserToTarget b a t = true ∨ a = b := by
  rcases lexLt_trichotomy (xorBytes a t) (xorBytes b t) with h | h | h
  · left; exact h
  · right; left; exact h
  · right; right; exact xorBytes_cancel ha hb h

theorem closerToTarget_asymm {a b t : NodeId} (h : CloserToTarget a b t = true) :
    CloserToTarget b a t = false :=
  lexLt_asymm h

/-- C6: for every fixed target identifier, the XOR-then-lexicographic
closeness comparison `CloserToTarget` induces a total order over
identifiers of the common fixed width: it is transitive, trichotomous,
asymmetric and irreflexive. -/
theorem closer_to_target_total_order (a b c t : NodeId)
    (ha : a.length = t.length) (hb : b.length = t.length) (hc : c.length = t.length) :
    (CloserToTarget a b t = true → CloserToTarget b c t = true →
      CloserToTarget a c t = true) ∧
    (CloserToTarget a b t = true ∨ CloserToTarget b a t = true ∨ a = b) ∧
    (CloserToTarget a b t = true → CloserToTarget b a t = false) ∧
    CloserToTarget a a t = false := by
  refine ⟨fun hab hbc => closerToTarget_trans hab hbc, ?_, ?_, closerToTarget_irrefl a t⟩
  · exact closerToTarget_trichotomy ha hb
  · exact fun h => closerToTarget_asymm h

/-- Witness for C6 at concrete identifiers of width three. -/
theorem closer_to_target_total_order_witness :
    CloserToTarget [0, 1, 2] [5, 0, 0] [0, 0, 0] = true ∧
    CloserToTarget [5, 0, 0] [9, 9, 9] [0, 0, 0] = true ∧
    CloserToTarget [0, 1, 2] [9, 9, 9] [0, 0, 0] = true := by
  have h := closer_to_target_total_order [0, 1, 2] [5, 0, 0] [9, 9, 9] [0, 0, 0]
    (by decide) (by decide) (by decide)
  exact ⟨by decide, by decide, h.1 (by decide) (by decide)⟩

/-- Outcome of `RoutingTable::Add`, per the spec contract
`Add(candidate) -> {Added, Evicted(old), Rejected}`. -/
inductive AddResult
  | added
  | evicted (old : NodeId)
  | rejected
deriving DecidableEq

/-- Modelled from the spec: the Routing Table (its implementation is not
under src/; the harness reads `routing_table_.nodes_` and
`routing_table_.kNodeId_`) — an ordered collection of peer identifiers,
ordered by distance to the local identifier, bounded at the configured
maximum size `closest_nodes_size`. -/
structure RoutingTable where
  kNodeId : NodeId
  maxSize : Nat
  nodes : List NodeId

/-- Insert a candidate into a distance-ordered list, keeping the order
by closeness to the reference identifier. -/
def insertRanked (ref c : NodeId) : List NodeId → List NodeId
  | [] => [c]
  | x :: xs => if CloserToTarget c x ref then c :: x :: xs else x :: insertRanked ref c xs

/-- Modelled from the spec: `RoutingTable::Add` (not under src/) —
inserts respecting the invariants: no duplicate identifiers; size stays
within the maximum; when full, a candidate closer than the current
farthest entry evicts the farthest entry, and a candidate farther than
all current entries is rejected. -/
def Add (t : RoutingTable) (c : NodeId) : RoutingTable × AddResult :=
  if t.nodes.contains c then (t, .rejected)
  else if t.nodes.length < t.maxSize then
    ({ t with nodes := insertRanked t.kNodeId c t.nodes }, .added)
  else
    match t.nodes.getLast? with
    | none => (t, .rejected)
    | some far =>
      if CloserToTarget c far t.kNodeId then
        ({ t with nodes := insertRanked t.kNodeId c t.nodes.dropLast }, .evicted far)
      else (t, .rejected)

/-- Modelled from the spec: on eviction the table signals
`close_node_replaced` exactly once per evicted entry; this returns the
list of identifiers the functor is invoked with for one `Add` call. -/
def closeNodeReplacedCalls : AddResult → List NodeId
  | .evicted old => [old]
  | _ => []

/-- A freshly constructed, empty Routing Table. -/
def emptyTable (localId : NodeId) (maxSize : Nat) : RoutingTable :=
  ⟨localId, maxSize, []⟩

/-- Apply a sequence of `Add` calls, dropping each call's result. -/
def applyAdds (t : RoutingTable) : List NodeId → RoutingTable
  | [] => t
  | c :: cs => applyAdds (Add t c).1 cs

/-- The list is strictly ascending by closeness to `ref`: every earlier
entry is strictly closer to `ref` than every later entry. -/
def Ranked (ref : NodeId) (l : List NodeId) : Prop :=
  l.Pairwise (fun a b => CloserToTarget a b ref = true)

instance (ref : NodeId) (l : List NodeId) : Decidable (Ranked ref l) :=
  inferInstanceAs (Decidable (l.Pairwise (fun a b => CloserToTarget a b ref = true)))

/-- Table well-formedness: fixed-width entries, bounded size, strictly
distance-ordered contents. -/
def tableWF (t : RoutingTable) : Prop :=
  (∀ x ∈ t.nodes, x.length = t.kNodeId.length) ∧
  t.nodes.length ≤ t.maxSize ∧ Ranked t.kNodeId t.nodes

theorem mem_insertRanked {ref c x : NodeId} {l : List NodeId} :
    x ∈ insertRanked ref c l ↔ x = c ∨ x ∈ l := by
  induction l with
  | nil => simp [insertRanked]
  | cons y ys ih =>
    by_cases h : CloserToTarget c y ref = true
    · simp [insertRanked, h]
    · simp only [insertRanked, if_neg h, List.mem_cons, ih]
      tauto

theorem length_insertRanked (ref c : NodeId) (l : List NodeId) :
    (insertRanked ref c l).length = l.length + 1 := by
  induction l with
  | nil => rfl
  | cons y ys ih =>
    by_cases h : CloserToTarget c y ref = true
    · simp [insertRanked, h]
    · simp [insertRanked, h, ih]

theorem insertRanked_ranked {ref c : NodeId} {l : List NodeId}
    (hl : Ranked ref l) (hc : c ∉ l) (hcl : c.length = ref.length)
    (hll : ∀ x ∈ l, x.length = ref.length) :
    Ranked ref (insertRanked ref c l) := by
  induction l with
  | nil => simp [insertRanked, Ranked]
  | cons y ys ih =>
    rw [Ranked, List.pairwise_cons] at hl
    obtain ⟨hy, hys⟩ := hl
    by_cases h : CloserToTarget c y ref = true
    · rw [Ranked, insertRanked, if_pos h, List.pairwise_cons]
      constructor
      · intro b hb
        rcases List.mem_cons.mp hb with hb | hb
        · rw [hb]; exact h
        · exact closerToTarget_trans h (hy b hb)
      · rw [List.pairwise_cons]
        exact ⟨hy, hys⟩
    · have hcy : c ≠ y := fun heq => hc (heq ▸ List.mem_cons_self y ys)
      have hyc : CloserToTarget y c ref = true := by
        rcases closerToTarget_trichotomy hcl (hll y (List.mem_cons_self y ys)) with h1 | h1 | h1
        · exact absurd h1 h
        · exact h1
        · exact absurd h1 hcy
      rw [Ranked, insertRanked, if_neg h, List.pairwise_cons]
      constructor
      · intro b hb
        rcases mem_insertRanked.mp hb with hb | hb
        · rw [hb]; exact hyc
        · exact hy b hb
      · exact ih hys (fun hmem => hc (List.mem_cons_of_mem y hmem))
          (fun x hx => hll x (List.mem_cons_of_mem y hx))

theorem add_kNodeId (t : RoutingTable) (c : NodeId) : (Add t c).1.kNodeId = t.kNodeId := by
  rw [Add]
  split
  · rfl
  · split
    · rfl
    · split
      · rfl
      · split
        · rfl
        · rfl

theorem add_maxSize (t : RoutingTable) (c : NodeId) : (Add t c).1.maxSize = t.maxSize := by
  rw [Add]
  split
  · rfl
  · split
    · rfl
    · split
      · rfl
      · split
        · rfl
        · rfl

theorem add_preserves_wf {t : RoutingTable} {c : NodeId} (hwf : tableWF t)
    (hc : c.length = t.kNodeId.length) : tableWF (Add t c).1 := by
  obtain ⟨hlen, hsize, hrank⟩ := hwf
  rw [Add]
  by_cases hmem : t.nodes.contains c
  · rw [if_pos hmem]; exact ⟨hlen, hsize, hrank⟩
  · rw [if_neg hmem]
    have hnotmem : c ∉ t.nodes := by simpa using hmem
    by_cases hlt : t.nodes.length < t.maxSize
    · rw [if_pos hlt]
      refine ⟨?_, ?_, ?_⟩
      · intro x hx
        rcases mem_insertRanked.mp hx with hx | hx
        · rw [hx]; exact hc
        · exact hlen x hx
      · simp only [length_insertRanked]
        exact Nat.succ_le_of_lt hlt
      · exact insertRanked_ranked hrank hnotmem hc hlen
    · rw [if_neg hlt]
      split
      · exact ⟨hlen, hsize, hrank⟩
      · rename_i far hfar
        by_cases hcloser : CloserToTarget c far t.kNodeId = true
        · rw [if_pos hcloser]
          have hne : t.nodes ≠ [] := by
            intro h0
            rw [h0] at hfar
            exact Option.noConfusion hfar
          have hdrop : t.nodes.dropLast.length = t.nodes.length - 1 :=
            List.length_dropLast t.nodes
          have hsub : t.nodes.dropLast.Sublist t.nodes := List.dropLast_sublist t.nodes
          refine ⟨?_, ?_, ?_⟩
          · intro x hx
            rcases mem_insertRanked.mp hx with hx | hx
            · rw [hx]; exact hc
            · exact hlen x (hsub.mem hx)
          · simp only [length_insertRanked, hdrop]
            have hpos : 0 < t.nodes.length := List.length_pos.mpr hne
            omega
          · exact insertRanked_ranked (List.Pairwise.sublist hsub hrank)
              (fun h => hnotmem (hsub.mem h)) hc
              (fun x hx => hlen x (hsub.mem hx))
        · rw [if_neg hcloser]; exact ⟨hlen, hsize, hrank⟩

theorem applyAdds_kNodeId (t : RoutingTable) (cs : List NodeId) :
    (applyAdds t cs).kNodeId = t.kNodeId := by
  induction cs generalizing t with
  | nil => rfl
  | cons c cs ih => rw [applyAdds, ih, add_kNodeId]

theorem applyAdds_maxSize (t : RoutingTable) (cs : List NodeId) :
    (applyAdds t cs).maxSize = t.maxSize := by
  induction cs generalizing t with
  | nil => rfl
  | cons c cs ih => rw [applyAdds, ih, add_maxSize]

theorem applyAdds_preserves_wf {t : RoutingTable} {cs : List NodeId} (hwf : tableWF t)
    (hcs : ∀ c ∈ cs, c.length = t.kNodeId.length) : tableWF (applyAdds t cs) := by
  induction cs generalizing t with
  | nil => exact hwf
  | cons c cs ih =>
    rw [applyAdds]
    refine ih (add_preserves_wf hwf (hcs c (List.mem_cons_self c cs))) ?_
    intro d hd
    rw [add_kNodeId]
    exact hcs d (List.mem_cons_of_mem c hd)

theorem ranked_nodup {ref : NodeId} {l : List NodeId} (h : Ranked ref l) : l.Nodup := by
  refine h.imp ?_
  intro a b hab heq
  rw [heq, closerToTarget_irrefl] at hab
  exact Bool.false_ne_true hab

/-- C1: for every sequence of `Add` calls on a Routing Table starting
empty, the table size never exceeds the configured maximum, and its
contents, ordered by XOR distance to the local identifier, are a
strictly ascending sequence with no duplicate identifiers.  Because the
table stores its entries already ordered by distance to the local
identifier, the stored list itself carries the strict ascending order. -/
theorem routing_table_add_invariant (localId : NodeId) (maxSize : Nat) (cs : List NodeId)
    (hcs : ∀ c ∈ cs, c.length = localId.length) :
    (applyAdds (emptyTable localId maxSize) cs).nodes.length ≤ maxSize ∧
    Ranked localId (applyAdds (emptyTable localId maxSize) cs).nodes ∧
    (applyAdds (emptyTable localId maxSize) cs).nodes.Nodup := by
  have hwf0 : tableWF (emptyTable localId maxSize) := by
    refine ⟨?_, ?_, ?_⟩
    · intro x hx; exact absurd hx (List.not_mem_nil x)
    · exact Nat.zero_le _
    · exact List.Pairwise.nil
  have hwf := applyAdds_preserves_wf hwf0 (by simpa [emptyTable] using hcs)
  obtain ⟨hlen, hsize, hrank⟩ := hwf
  rw [applyAdds_maxSize] at hsize
  rw [applyAdds_kNodeId] at hrank
  exact ⟨hsize, hrank, ranked_nodup hrank⟩

/-- Witness for C1 at a concrete sequence of four adds into a table of
capacity two. -/
theorem routing_table_add_invariant_witness :
    (applyAdds (emptyTable [0, 0] 2) [[7, 1], [3, 4], [0, 9], [5, 5]]).nodes.length ≤ 2 ∧
    Ranked [0, 0] (applyAdds (emptyTable [0, 0] 2) [[7, 1], [3, 4], [0, 9], [5, 5]]).nodes ∧
    (applyAdds (emptyTable [0, 0] 2) [[7, 1], [3, 4], [0, 9], [5, 5]]).nodes.Nodup :=
  routing_table_add_invariant [0, 0] 2 [[7, 1], [3, 4], [0, 9], [5, 5]] (by decide)

/-- Insertion sort of identifiers by ascending XOR distance to `ref`. -/
def sortRanked (ref : NodeId) (l : List NodeId) : List NodeId :=
  l.foldr (insertRanked ref) []

/-- Modelled from the spec: `RoutingTable::ClosestTo(target, k)` (not
under src/) — returns up to `k` known entries ordered by ascending
distance to `target`. -/
def ClosestTo (t : RoutingTable) (target : NodeId) (k : Nat) : List NodeId :=
  (sortRanked target t.nodes).take k

theorem length_sortRanked (ref : NodeId) (l : List NodeId) :
    (sortRanked ref l).length = l.length := by
  induction l with
  | nil => rfl
  | cons c cs ih =>
    show (insertRanked ref c (sortRanked ref cs)).length = cs.length + 1
    rw [length_insertRanked, ih]

theorem mem_sortRanked {ref x : NodeId} {l : List NodeId} :
    x ∈ sortRanked ref l ↔ x ∈ l := by
  induction l with
  | nil => exact Iff.rfl
  | cons c cs ih =>
    show x ∈ insertRanked ref c (sortRanked ref cs) ↔ _
    rw [mem_insertRanked, ih, List.mem_cons]

theorem sortRanked_ranked {ref : NodeId} {l : List NodeId} (hnd : l.Nodup)
    (hll : ∀ x ∈ l, x.length = ref.length) : Ranked ref (sortRanked ref l) := by
  induction l with
  | nil => exact List.Pairwise.nil
  | cons c cs ih =>
    rw [List.nodup_cons] at hnd
    show Ranked ref (insertRanked ref c (sortRanked ref cs))
    refine insertRanked_ranked (ih hnd.2 ?_) ?_ ?_ ?_
    · intro x hx; exact hll x (List.mem_cons_of_mem c hx)
    · intro h; exact hnd.1 (mem_sortRanked.mp h)
    · exact hll c (List.mem_cons_self c cs)
    · intro x hx; exact hll x (List.mem_cons_of_mem c (mem_sortRanked.mp hx))

/-- C3: `ClosestTo(target, k)` returns a subset of the current entries,
of size exactly `min k (table size)`, sorted ascending by XOR distance
to `target`, and it is idempotent: a second call on the unchanged table
returns the identical result. -/
theorem closest_to_contract (t : RoutingTable) (target : NodeId) (k : Nat)
    (hnd : t.nodes.Nodup) (hll : ∀ x ∈ t.nodes, x.length = target.length) :
    (∀ x ∈ ClosestTo t target k, x ∈ t.nodes) ∧
    (ClosestTo t target k).length = min k t.nodes.length ∧
    Ranked target (ClosestTo t target k) ∧
    ClosestTo t target k = ClosestTo t target k := by
  refine ⟨?_, ?_, ?_, rfl⟩
  · intro x hx
    exact mem_sortRanked.mp (List.mem_of_mem_take hx)
  · rw [ClosestTo, List.length_take, length_sortRanked]
  · exact List.Pairwise.sublist (List.take_sublist k _) (sortRanked_ranked hnd hll)

/-- Witness for C3 at a concrete three-entry table queried for its two
entries closest to a fresh target. -/
theorem closest_to_contract_witness :
    (∀ x ∈ ClosestTo ⟨[0, 0], 4, [[1, 1], [2, 2], [9, 0]]⟩ [9, 1] 2,
      x ∈ [[1, 1], [2, 2], [9, 0]]) ∧
    (ClosestTo ⟨[0, 0], 4, [[1, 1], [2, 2], [9, 0]]⟩ [9, 1] 2).length = 2 := by
  have h := closest_to_contract ⟨[0, 0], 4, [[1, 1], [2, 2], [9, 0]]⟩ [9, 1] 2
    (by decide) (by decide)
  exact ⟨h.1, by rw [h.2.1]; decide⟩

theorem dropLast_append_of_getLast? {l : List NodeId} {a : NodeId}
    (h : l.getLast? = some a) : l.dropLast ++ [a] = l := by
  induction l with
  | nil => exact Option.noConfusion h
  | cons x xs ih =>
    cases xs with
    | nil =>
      have : a = x := by
        have hx : (some x : Option NodeId) = some a := h
        exact (Option.some.inj hx).symm
      rw [this]
      rfl
    | cons y ys =>
      have h' : (y :: ys).getLast? = some a := h
      have := ih h'
      show x :: ((y :: ys).dropLast ++ [a]) = x :: (y :: ys)
      rw [this]

theorem insertRanked_perm (ref c : NodeId) (l : List NodeId) :
    List.Perm (insertRanked ref c l) (c :: l) := by
  induction l with
  | nil => exact List.Perm.refl _
  | cons y ys ih =>
    by_cases h : CloserToTarget c y ref = true
    · rw [insertRanked, if_pos h]
    · rw [insertRanked, if_neg h]
      exact List.Perm.trans (List.Perm.cons y ih) (List.Perm.swap c y ys)

/-- C5: on a full Routing Table, a candidate strictly closer to the
local identifier than the current farthest entry evicts exactly that
farthest entry, and the `close_node_replaced` functor fires exactly once
with the evicted entry; a candidate farther than every current entry is
rejected and the table is left unchanged. -/
theorem add_eviction (t : RoutingTable) (c far : NodeId) (hwf : tableWF t)
    (hfull : t.nodes.length = t.maxSize) (hfar : t.nodes.getLast? = some far)
    (hnotmem : c ∉ t.nodes) :
    (CloserToTarget c far t.kNodeId = true →
      (Add t c).2 = AddResult.evicted far ∧
      closeNodeReplacedCalls (Add t c).2 = [far] ∧
      far ∉ (Add t c).1.nodes ∧
      List.Perm (Add t c).1.nodes (c :: t.nodes.dropLast)) ∧
    ((∀ x ∈ t.nodes, CloserToTarget x c t.kNodeId = true) →
      Add t c = (t, AddResult.rejected)) := by
  obtain ⟨hlen, hsize, hrank⟩ := hwf
  have hmem : t.nodes.contains c = false := by
    cases hcon : t.nodes.contains c with
    | false => rfl
    | true =>
      exact absurd (by simpa using hcon) hnotmem
  have hnlt : ¬ t.nodes.length < t.maxSize := by omega
  have hsplitlist : t.nodes.dropLast ++ [far] = t.nodes := dropLast_append_of_getLast? hfar
  have hfarmem : far ∈ t.nodes := by
    rw [← hsplitlist]
    exact List.mem_append_right _ (List.mem_singleton.mpr rfl)
  constructor
  · intro hcloser
    have heq : Add t c =
        ({ t with nodes := insertRanked t.kNodeId c t.nodes.dropLast },
          AddResult.evicted far) := by
      rw [Add, if_neg (by simpa using hnotmem), if_neg hnlt, hfar]
      simp only [if_pos hcloser]
    have hfarnot : far ∉ (Add t c).1.nodes := by
      rw [heq]
      intro hin
      rcases mem_insertRanked.mp hin with h1 | h1
      · exact hnotmem (h1 ▸ hfarmem)
      · have hnd : t.nodes.Nodup := ranked_nodup hrank
        rw [← hsplitlist] at hnd
        have hdisj := (List.nodup_append.mp hnd).2.2
        exact hdisj h1 (List.mem_singleton.mpr rfl)
    refine ⟨by rw [heq], by rw [heq]; rfl, hfarnot, ?_⟩
    rw [heq]
    exact insertRanked_perm t.kNodeId c t.nodes.dropLast
  · intro hall
    have hfarcloser : CloserToTarget far c t.kNodeId = true := hall far hfarmem
    have hnotcloser : CloserToTarget c far t.kNodeId = false :=
      closerToTarget_asymm hfarcloser
    rw [Add, if_neg (by simpa using hnotmem), if_neg hnlt, hfar]
    simp only [hnotcloser]
    rfl

/-- Witness for C5: a full two-entry table, a closer candidate evicts
the farthest entry and the functor fires exactly once for it. -/
theorem add_eviction_witness :
    closeNodeReplacedCalls (Add ⟨[0, 0], 2, [[0, 1], [3, 0]]⟩ [0, 2]).2 = [[3, 0]] := by
  have h := add_eviction ⟨[0, 0], 2, [[0, 1], [3, 0]]⟩ [0, 2] [3, 0]
    ⟨by decide, by decide, by decide⟩ (by decide) (by decide) (by decide)
  exact (h.1 (by decide)).2.1

/-- The observable state of a `GenericNode` touched by its
`message_received` functor: client mode and the received-message list. -/
structure GenericNodeState where
  clientMode : Bool
  messages : List String

/-- Embedded from `GenericNode::GenericNode` (routing_network.cc, the
`functors_.message_received` lambda): the handler appends the incoming
payload to `messages_` and, when `IsClient()` is false, invokes the
reply functor with the string `Response to >:<` prepended to the
message.  The second component lists the reply-functor invocations this
call performs. -/
def messageReceived (s : GenericNodeState) (message : String) :
    GenericNodeState × List String :=
  ({ s with messages := s.messages ++ [message] },
   if !s.clientMode then ["Response to >:<" ++ message] else [])

/-- C10: the `message_received` handler always appends the payload to
the node's message list, never changes the client flag, and invokes the
reply functor exactly when the node is not in client mode, with
`Response to >:<` prepended to the received message; a client-mode node
never replies. -/
theorem message_received_contract (s : GenericNodeState) (m : String) :
    (messageReceived s m).1.messages = s.messages ++ [m] ∧
    (messageReceived s m).1.clientMode = s.clientMode ∧
    (messageReceived s m).2 =
      (if s.clientMode then [] else ["Response to >:<" ++ m]) := by
  refine ⟨rfl, rfl, ?_⟩
  cases h : s.clientMode with
  | false => simp [messageReceived, h]
  | true => simp [messageReceived, h]

/-- A test-harness fob: an identity and its public key (the key itself
is opaque here). -/
structure Fob where
  identity : NodeId
  publicKey : Nat
deriving DecidableEq

/-- The default-constructed `NodeId()`: the all-zero identifier of the
observed 64-byte width. -/
def zeroNodeId : NodeId := List.replicate 64 0

/-- Embedded from `GenericNetwork::Validate` (routing_network.cc):
returns the list of public keys the `give_public_key` continuation is
invoked with.  The function returns immediately for the zero
identifier; otherwise it scans `fobs_` for the first fob whose identity
matches and invokes the continuation with its public key only when one
was found. -/
def Validate (fobs : List Fob) (nodeId : NodeId) : List Nat :=
  if nodeId = zeroNodeId then []
  else
    match fobs.find? (fun f => f.identity == nodeId) with
    | some fob => [fob.publicKey]
    | none => []

/-- Counterexample to C9: for the zero (anonymous) identifier,
`GenericNetwork::Validate` returns without invoking the continuation at
all — zero invocations, not exactly one. -/
theorem validate_zero_id_counterexample :
    (Validate [⟨List.replicate 64 1, 7⟩] zeroNodeId).length = 0 := by
  rw [Validate, if_pos rfl]
  rfl

/-- C9 amended: each `Validate` call invokes the continuation at most
once — exactly once, with the stored public key, when the identifier is
non-zero and matches a stored fob; zero times (and with no not-found
indication) for the zero identifier or an identifier matching no stored
fob. -/
theorem validate_at_most_once (fobs : List Fob) (nodeId : NodeId) :
    (Validate fobs nodeId).length ≤ 1 ∧
    (nodeId ≠ zeroNodeId → ∀ fob, fobs.find? (fun f => f.identity == nodeId) = some fob →
      Validate fobs nodeId = [fob.publicKey]) ∧
    (nodeId = zeroNodeId → Validate fobs nodeId = []) ∧
    (fobs.find? (fun f => f.identity == nodeId) = none → Validate fobs nodeId = []) := by
  refine ⟨?_, ?_, ?_, ?_⟩
  · rw [Validate]
    by_cases h : nodeId = zeroNodeId
    · rw [if_pos h]; exact Nat.zero_le 1
    · rw [if_neg h]
      cases fobs.find? (fun f => f.identity == nodeId) with
      | none => exact Nat.zero_le 1
      | some fob => exact Nat.le_refl 1
  · intro hnz fob hfind
    rw [Validate, if_neg hnz, hfind]
  · intro hz
    rw [Validate, if_pos hz]
  · intro hfind
    rw [Validate]
    by_cases h : nodeId = zeroNodeId
    · rw [if_pos h]
    · rw [if_neg h, hfind]

/-- Witness for the amended C9: a known non-zero identifier gets its
key delivered exactly once, and an unknown one gets nothing. -/
theorem validate_at_most_once_witness :
    Validate [⟨List.replicate 64 1, 7⟩] (List.replicate 64 1) = [7] ∧
    Validate [⟨List.replicate 64 1, 7⟩] (List.replicate 64 2) = [] := by
  constructor
  · exact (validate_at_most_once [⟨List.replicate 64 1, 7⟩] (List.replicate 64 1)).2.1
      (by decide) ⟨List.replicate 64 1, 7⟩ (by decide)
  · exact (validate_at_most_once [⟨List.replicate 64 1, 7⟩] (List.replicate 64 2)).2.2.2
      (by decide)

/-- An event that can hit a Pending-Response Entry: the correlated
reply arrives, or the timeout deadline fires. -/
inductive TimerEvent
  | reply
  | expire
deriving DecidableEq

/-- How the response callback was invoked. -/
inductive CallbackResult
  | correlatedReply
  | timeoutFailure
deriving DecidableEq

/-- A Pending-Response Entry as seen by its owner: whether it is still
registered, and the callback invocations performed so far. -/
structure PendingEntry where
  active : Bool
  calls : List CallbackResult

/-- Modelled from the spec: response correlation in the Message Router
(not under src/) — on a reply carrying the recorded correlation id the
callback is invoked with the reply and the entry removed; if the
timeout elapses first the callback is invoked with a timeout failure
and the entry removed; an event that finds no entry is discarded. -/
def timerStep (s : PendingEntry) (e : TimerEvent) : PendingEntry :=
  if s.active then
    match e with
    | TimerEvent.reply =>
      { active := false, calls := s.calls ++ [CallbackResult.correlatedReply] }
    | TimerEvent.expire =>
      { active := false, calls := s.calls ++ [CallbackResult.timeoutFailure] }
  else s

/-- Run a fresh Pending-Response Entry through a sequence of events. -/
def runPending (events : List TimerEvent) : PendingEntry :=
  events.foldl timerStep { active := true, calls := [] }

/-- The callback invocation an event produces on a live entry. -/
def invocationOf : TimerEvent → CallbackResult
  | TimerEvent.reply => CallbackResult.correlatedReply
  | TimerEvent.expire => CallbackResult.timeoutFailure

theorem foldl_timerStep_inactive (events : List TimerEvent) (s : PendingEntry)
    (h : s.active = false) : List.foldl timerStep s events = s := by
  induction events with
  | nil => rfl
  | cons e es ih =>
    show List.foldl timerStep (timerStep s e) es = s
    rw [timerStep.eq_def, h]
    exact ih

/-- C2: for every dispatched message with a registered callback, over
any nonempty sequence of reply/timeout events on its Pending-Response
Entry (the deadline guarantees at least one event occurs), the callback
is invoked exactly once — by the first event, with the correlated reply
or the timeout failure respectively — and every later event, such as a
reply arriving after the timeout fired, is discarded without a second
invocation. -/
theorem callback_exactly_once (e0 : TimerEvent) (events : List TimerEvent) :
    (runPending (e0 :: events)).calls = [invocationOf e0] ∧
    (runPending (e0 :: events)).calls.length = 1 := by
  have hstep : timerStep { active := true, calls := [] } e0 =
      { active := false, calls := [invocationOf e0] } := by
    cases e0 with
    | reply => rfl
    | expire => rfl
  have hrun : runPending (e0 :: events) = { active := false, calls := [invocationOf e0] } := by
    show List.foldl timerStep (timerStep { active := true, calls := [] } e0) events = _
    rw [hstep]
    exact foldl_timerStep_inactive events _ rfl
  rw [hrun]
  exact ⟨rfl, rfl⟩

/-- Modelled from the spec: routing return codes surfaced to the owner
(return_codes.h is not under src/) — success, generic failure, and the
distinguished terminal status for ephemeral-identity joins.  Their
concrete values are opaque; only `kSuccess = 0`, failures negative. -/
def kSuccess : Int := 0

/-- Modelled from the spec: the generic failure return code. -/
def kGeneralError : Int := -1

/-- Modelled from the spec: the distinguished anonymous-session-ended
return code. -/
def kAnonymousSessionEnded : Int := -2

/-- Result of a join attempt: the surfaced return code, the resulting
Routing Table, and the joined flag. -/
structure JoinOutcome where
  code : Int
  table : RoutingTable
  joined : Bool

/-- Modelled from the spec: `Routing::ZeroStateJoin` (not under src/) —
given exactly two peers with no prior network, each connects directly
to the other's known endpoint, inserts the other into its Routing
Table unconditionally, and transitions to Joined; returns a non-success
code if the direct connection cannot be established. -/
def ZeroStateJoin (localId peerId : NodeId) (maxSize : Nat) (connected : Bool) :
    JoinOutcome :=
  if connected then
    { code := kSuccess,
      table := { kNodeId := localId, maxSize := maxSize, nodes := [peerId] },
      joined := true }
  else
    { code := kGeneralError, table := emptyTable localId maxSize, joined := false }

/-- C4: for any two peers with no prior network state, zero-state join
succeeds on both sides absent transport failure, and afterwards each
peer's Routing Table contains exactly the other peer and nothing
else. -/
theorem zero_state_join_contract (a b : NodeId) (m : Nat) (connected : Bool)
    (hconn : connected = true) :
    (ZeroStateJoin a b m connected).code = kSuccess ∧
    (ZeroStateJoin a b m connected).table.nodes = [b] ∧
    (ZeroStateJoin a b m connected).joined = true ∧
    (ZeroStateJoin b a m connected).code = kSuccess ∧
    (ZeroStateJoin b a m connected).table.nodes = [a] ∧
    (ZeroStateJoin b a m connected).joined = true := by
  subst hconn
  rw [ZeroStateJoin, if_pos rfl, ZeroStateJoin, if_pos rfl]
  exact ⟨rfl, rfl, rfl, rfl, rfl, rfl⟩

/-- Witness for C4 at two concrete peers on a healthy transport. -/
theorem zero_state_join_contract_witness :
    (ZeroStateJoin [1, 2] [3, 4] 8 true).code = kSuccess ∧
    (ZeroStateJoin [1, 2] [3, 4] 8 true).table.nodes = [[3, 4]] ∧
    (ZeroStateJoin [3, 4] [1, 2] 8 true).table.nodes = [[1, 2]] := by
  have h := zero_state_join_contract [1, 2] [3, 4] 8 true rfl
  exact ⟨h.1, h.2.1, h.2.2.2.2.1⟩

/-- Outcome of routing one direct-mode message. -/
inductive RouteOutcome
  | delivered (finalNode : NodeId)
  | unreachable
  | hopLimitExhausted
deriving DecidableEq

/-- A static view of an overlay network: the participating identifiers
and each participant's Routing Table contents. -/
structure Network where
  nodes : List NodeId
  tables : NodeId → List NodeId

/-- Modelled from the spec: direct-mode forwarding in the Message
Router (not under src/) — at each hop the node picks from its local
Routing Table the single known peer closest to the destination,
excluding the immediate sender, and forwards verbatim, decrementing a
hop budget to bound loops; a message with no next hop or an exhausted
budget is dropped and surfaced as a failure. -/
def routeDirect (net : Network) (dest : NodeId) :
    Nat → NodeId → NodeId → RouteOutcome
  | 0, _, _ => RouteOutcome.hopLimitExhausted
  | budget + 1, current, sender =>
    if current = dest then RouteOutcome.delivered current
    else
      match sortRanked dest ((net.tables current).filter (fun x => x != sender)) with
      | [] => RouteOutcome.unreachable
      | next :: _ => routeDirect net dest budget next current

/-- A routing outcome that is reported as a failure, not a delivery. -/
def RouteOutcome.isFailure : RouteOutcome → Bool
  | RouteOutcome.delivered _ => false
  | _ => true

/-- C7: a direct-mode `Send` to a destination identifier present
nowhere in the network terminates for every finite hop budget (the
budget strictly decreases at each hop, so the recursion is structural)
and always surfaces a not-found/unreachable failure — it is never
reported delivered, so the caller is failed rather than left hanging. -/
theorem direct_send_unreachable (net : Network) (dest : NodeId)
    (hdest : dest ∉ net.nodes)
    (hclosed : ∀ n ∈ net.nodes, ∀ x ∈ net.tables n, x ∈ net.nodes) :
    ∀ (budget : Nat) (current sender : NodeId), current ∈ net.nodes →
      (routeDirect net dest budget current sender).isFailure = true := by
  intro budget
  induction budget with
  | zero => intro current sender _; rfl
  | succ b ih =>
    intro current sender hcur
    have hne : current ≠ dest := fun h => hdest (h ▸ hcur)
    rw [routeDirect, if_neg hne]
    cases hsort : sortRanked dest ((net.tables current).filter (fun x => x != sender)) with
    | nil => rfl
    | cons next rest =>
      have hnextmem : next ∈ net.nodes := by
        have h1 : next ∈ sortRanked dest ((net.tables current).filter (fun x => x != sender)) := by
          rw [hsort]
          exact List.mem_cons_self next rest
        have h2 := List.mem_of_mem_filter (mem_sortRanked.mp h1)
        exact hclosed current hcur next h2
      exact ih next current hnextmem

/-- Witness for C7 on a concrete two-node network asked for an absent
identifier. -/
theorem direct_send_unreachable_witness :
    (routeDirect
      ⟨[[1], [2]], fun n => if n = [1] then [[2]] else [[1]]⟩
      [9] 5 [1] [2]).isFailure = true := by
  refine direct_send_unreachable
    ⟨[[1], [2]], fun n => if n = [1] then [[2]] else [[1]]⟩ [9]
    (by decide) ?_ 5 [1] [2] (by decide)
  intro n hn
  fin_cases hn <;> decide

/-- The state the harness `network_status` functor reads and writes:
the anonymity flag, the joined flag, and the expected close-peer
count. -/
structure StatusNodeState where
  anonymous : Bool
  joined : Bool
  expected : Int

/-- Embedded from the `network_status` functor installed by
`GenericNetwork::AddNodeDetails` (routing_network.cc): the assertion
the functor checks for each delivered status — a non-anonymous node
only sees codes at least `kSuccess`; an anonymous node sees `kSuccess`
before it is joined and `kAnonymousSessionEnded` after. -/
def networkStatusAssert (s : StatusNodeState) (result : Int) : Bool :=
  if !s.anonymous then decide (kSuccess ≤ result)
  else if !s.joined then result == kSuccess
  else result == kAnonymousSessionEnded

/-- Embedded from the same functor: the joined-flag update — the node
is marked joined when the status first reaches the expected count, or
unconditionally for an anonymous node. -/
def networkStatusUpdate (s : StatusNodeState) (result : Int) : StatusNodeState :=
  if ((result == s.expected) && !s.joined) || s.anonymous then
    { s with joined := true }
  else s

/-- Run the harness functor over a status trace, conjoining all its
assertion checks and threading the node state. -/
def runStatusTrace (s : StatusNodeState) : List Int → Bool × StatusNodeState
  | [] => (true, s)
  | r :: rs =>
    let rec' := runStatusTrace (networkStatusUpdate s r) rs
    (networkStatusAssert s r && rec'.1, rec'.2)

/-- Modelled from the spec: the sequence of `network_status` codes a
join delivers to the owner (the Join implementation is not under
src/) — a non-anonymous join reports current close-peer counts, which
are non-negative; an anonymous join reports a successful join and then,
by the anonymous-session contract, concludes with the distinguished
`kAnonymousSessionEnded` status. -/
def joinStatusTrace (anonymous : Bool) (counts : List Nat) : List Int :=
  if anonymous then [kSuccess, kAnonymousSessionEnded]
  else counts.map Int.ofNat

/-- C8: an anonymous join concludes with the distinguished
`kAnonymousSessionEnded` status as its final delivered status, and the
harness functor's assertions accept that trace; a non-anonymous join
never receives `kAnonymousSessionEnded` among its statuses. -/
theorem anonymous_join_session_ended (counts : List Nat) (e : Int) :
    (joinStatusTrace true counts).getLast? = some kAnonymousSessionEnded ∧
    kAnonymousSessionEnded ∉ joinStatusTrace false counts ∧
    (runStatusTrace ⟨true, false, e⟩ (joinStatusTrace true counts)).1 = true ∧
    (runStatusTrace ⟨true, false, e⟩ (joinStatusTrace true counts)).2.joined = true := by
  refine ⟨rfl, ?_, ?_, ?_⟩
  · intro hmem
    rw [joinStatusTrace, if_neg (by simp)] at hmem
    obtain ⟨n, _, hn⟩ := List.mem_map.mp hmem
    have h3 : (0 : Int) ≤ Int.ofNat n := Int.ofNat_nonneg n
    rw [hn, kAnonymousSessionEnded] at h3
    exact absurd h3 (by decide)
  · simp [joinStatusTrace, runStatusTrace, networkStatusAssert, networkStatusUpdate,
      kSuccess, kAnonymousSessionEnded]
  · simp [joinStatusTrace, runStatusTrace, networkStatusAssert, networkStatusUpdate,
      kSuccess, kAnonymousSessionEnded]

end MaidSafeRouting
